import Mathlib

/-! TrustLens: risk scoring of installed editor extensions

A shallow embedding of `src/extension.js` and the properties of its
normaliser (`normalizeArray`), classifier (`assessRisk`) and report builder
(`TrustLensProvider.getChildren`).

JavaScript values are embedded as the datatype `JSVal` (the values a parsed
`package.json` can hold, plus `undefined` for a missing property). A function
that can throw returns `Except JSError`.
-/

namespace TrustLens

/-! ## JavaScript values -/

/-- The values a manifest can hold. Numbers are represented by an integer: the
program only observes whether a number is zero. -/
inductive JSVal where
  | undefined : JSVal
  | null : JSVal
  | bool (b : Bool) : JSVal
  | num (n : Int) : JSVal
  | str (s : String) : JSVal
  | arr (xs : List JSVal) : JSVal
  | obj (fields : List (String × JSVal)) : JSVal

/-- The exceptions the program can raise: reading a property of `undefined` or
`null`, or calling a method that is not there, is a `TypeError`. -/
inductive JSError where
  | TypeError : JSError
  deriving DecidableEq, Repr

namespace JSVal

/-- JavaScript truthiness (`ToBoolean`): `undefined`, `null`, `false`, `0` and
the empty string are falsy; every array and every object is truthy. -/
def truthy : JSVal → Bool
  | undefined => false
  | null => false
  | bool b => b
  | num n => decide (n ≠ 0)
  | str s => decide (s ≠ "")
  | arr _ => true
  | obj _ => true

/-- The value is `undefined` or `null`. -/
def nullish : JSVal → Bool
  | undefined => true
  | null => true
  | _ => false

/-- The value is a string. -/
def isString : JSVal → Bool
  | str _ => true
  | _ => false

/-- The value is an array (`Array.isArray`). -/
def isArray : JSVal → Bool
  | arr _ => true
  | _ => false

/-- Property read `v.key` for the manifest keys the program reads
(`activationEvents`, `extensionKind`, `main`, `isBuiltin`, `displayName`, ...):
a `TypeError` on `undefined` and `null`, the stored value (or `undefined`) on an
object, and `undefined` on any other value, which has no such property. -/
def get (v : JSVal) (key : String) : Except JSError JSVal :=
  match v with
  | undefined => .error .TypeError
  | null => .error .TypeError
  | obj fields => .ok ((fields.lookup key).getD undefined)
  | _ => .ok undefined

/-- The value is the string `s` (the comparison `Array.prototype.includes`
makes against a string argument). -/
def isStr (s : String) : JSVal → Bool
  | str t => decide (t = s)
  | _ => false

end JSVal

/-- `xs.includes(s)` for a string `s`. -/
def includes (xs : List JSVal) (s : String) : Bool :=
  xs.any (JSVal.isStr s)

/-! ## Data model -/

/-- The three risk tiers (`RISK` in the source). -/
inductive RISK where
  | LOW : RISK
  | MEDIUM : RISK
  | HIGH : RISK
  deriving DecidableEq, Repr

/-- An installed extension as the host hands it over: its identifier and its
manifest `packageJSON`. -/
structure Extension where
  id : String
  packageJSON : JSVal

/-- The result of `assessRisk`. -/
structure Assessment where
  level : RISK
  score : Nat
  reasons : List String
  deriving DecidableEq, Repr

/-! ## Normaliser and classifier -/

/-- `normalizeArray(value)`: the empty array for a falsy value, the value itself
when it is an array, and the one-element array holding it otherwise. -/
def normalizeArray (value : JSVal) : List JSVal :=
  if !value.truthy then
    []
  else
    match value with
    | .arr xs => xs
    | v => [v]

/-- `getExtensionKind(extension)`: reads `extension.packageJSON.extensionKind`
without a guard on `packageJSON`. -/
def getExtensionKind (extension : Extension) : Except JSError (List JSVal) := do
  let kind ← extension.packageJSON.get "extensionKind"
  if !kind.truthy then
    pure []
  else
    pure (normalizeArray kind)

/-- `assessRisk(extension)`: the additive point system over the manifest. -/
def assessRisk (extension : Extension) : Except JSError Assessment := do
  let pkg := if extension.packageJSON.truthy then extension.packageJSON else JSVal.obj []
  let activationEvents := normalizeArray (← pkg.get "activationEvents")
  let kinds ← getExtensionKind extension
  let score := 0
  let reasons : List String := []
  let (score, reasons) :=
    if includes activationEvents "*" then
      (score + 3, reasons ++ ["Activates on all events"])
    else (score, reasons)
  let (score, reasons) :=
    if includes activationEvents "onStartupFinished" then
      (score + 2, reasons ++ ["Activates on startup"])
    else (score, reasons)
  let runsInWorkspace := includes kinds "workspace" || kinds.length == 0
  let (score, reasons) :=
    if runsInWorkspace then
      (score + 2, reasons ++ ["Runs in workspace (filesystem access)"])
    else (score, reasons)
  let main ← pkg.get "main"
  let (score, reasons) :=
    if main.truthy && runsInWorkspace then
      (score + 1, reasons ++ ["Runs Node.js extension host code"])
    else (score, reasons)
  let level :=
    if score ≥ 5 then RISK.HIGH
    else if score ≥ 3 then RISK.MEDIUM
    else RISK.LOW
  pure ⟨level, score, reasons⟩

/-! ## Report builder -/

/-- The string primitives of the host runtime that the sort comparator calls:
`String.prototype.toLowerCase` and `String.prototype.localeCompare`. They are
not part of the program and are taken as parameters. -/
structure Host where
  toLowerCase : String → String
  localeCompare : String → String → Int

/-- The comparator `localeCompare` is consistent, as the language standard
requires of it: any two strings are comparable and the comparison is
transitive. -/
def Host.Consistent (host : Host) : Prop :=
  (∀ a b, host.localeCompare a b ≤ 0 ∨ host.localeCompare b a ≤ 0) ∧
  (∀ a b c, host.localeCompare a b ≤ 0 → host.localeCompare b c ≤ 0 →
    host.localeCompare a c ≤ 0)

/-- One element of the array built in `getChildren`:
`{ extension: ext, assessment: assessRisk(ext) }`. -/
structure Entry where
  extension : Extension
  assessment : Assessment

/-- The table `order = { high: 0, medium: 1, low: 2 }` of the comparator. -/
def order : RISK → Int
  | .HIGH => 0
  | .MEDIUM => 1
  | .LOW => 2

/-- `(extension.packageJSON.displayName || extension.id).toLowerCase()`: a
`TypeError` when the manifest is missing, or when `displayName` is truthy but
not a string and so has no method `toLowerCase`. -/
def sortName (host : Host) (extension : Extension) : Except JSError String := do
  let displayName ← extension.packageJSON.get "displayName"
  let chosen := if displayName.truthy then displayName else JSVal.str extension.id
  match chosen with
  | .str s => pure (host.toLowerCase s)
  | _ => throw .TypeError

/-- The comparator passed to `sort` in `getChildren`. -/
def compareEntries (host : Host) (a b : Entry) : Except JSError Int := do
  let diff := order a.assessment.level - order b.assessment.level
  if diff ≠ 0 then
    pure diff
  else
    let aName ← sortName host a.extension
    let bName ← sortName host b.extension
    pure (host.localeCompare aName bName)

/-- Insertion of `a` in front of the first element it does not compare greater
than. -/
def insertSorted {α : Type} (cmp : α → α → Except JSError Int) (a : α) :
    List α → Except JSError (List α)
  | [] => pure [a]
  | b :: l => do
    let c ← cmp a b
    if c ≤ 0 then
      pure (a :: b :: l)
    else
      let rest ← insertSorted cmp a l
      pure (b :: rest)

/-- `Array.prototype.sort(cmp)`, which the language standard requires to be a
stable sort. It is embedded as the stable insertion sort: with a consistent
comparator every stable sort returns this same list. An exception raised by the
comparator propagates. -/
def sort {α : Type} (cmp : α → α → Except JSError Int) : List α → Except JSError (List α)
  | [] => pure []
  | a :: l => do
    let sorted ← sort cmp l
    insertSorted cmp a sorted

/-- `.filter((ext) => !ext.packageJSON.isBuiltin)`. -/
def filterNotBuiltin : List Extension → Except JSError (List Extension)
  | [] => pure []
  | ext :: rest => do
    let isBuiltin ← ext.packageJSON.get "isBuiltin"
    let kept ← filterNotBuiltin rest
    if !isBuiltin.truthy then
      pure (ext :: kept)
    else
      pure kept

/-- `.map((ext) => ({ extension: ext, assessment: assessRisk(ext) }))`. -/
def mapAssess : List Extension → Except JSError (List Entry)
  | [] => pure []
  | ext :: rest => do
    let assessment ← assessRisk ext
    let entries ← mapAssess rest
    pure (⟨ext, assessment⟩ :: entries)

/-- The constant `extensions` of `TrustLensProvider.getChildren`: the report
entries before they are rendered, for the installed extensions `all`
(`vscode.extensions.all`). -/
def reportEntries (host : Host) (all : List Extension) : Except JSError (List Entry) := do
  let kept ← filterNotBuiltin all
  let entries ← mapAssess kept
  sort (compareEntries host) entries

/-! ## Presentation -/

mutual
/-- String conversion of a value interpolated into a template literal
(`ToString`); an array is the comma-joined conversion of its elements. -/
def JSVal.toStr : JSVal → String
  | .undefined => "undefined"
  | .null => "null"
  | .bool b => if b then "true" else "false"
  | .num n => toString n
  | .str s => s
  | .arr xs => ",".intercalate (JSVal.toStrs xs)
  | .obj _ => "[object Object]"
/-- The conversions of the elements of an array, as `Array.prototype.join`
takes them: `undefined` and `null` count as the empty string. -/
def JSVal.toStrs : List JSVal → List String
  | [] => []
  | .undefined :: xs => "" :: JSVal.toStrs xs
  | .null :: xs => "" :: JSVal.toStrs xs
  | x :: xs => JSVal.toStr x :: JSVal.toStrs xs
end

/-- The pieces of a character sequence between the occurrences of `sep`. -/
def splitChars (sep : Char) : List Char → List (List Char)
  | [] => [[]]
  | c :: cs =>
    if c = sep then
      [] :: splitChars sep cs
    else
      match splitChars sep cs with
      | [] => [[c]]
      | piece :: pieces => (c :: piece) :: pieces

/-- `s.split(sep)` for a one-character separator. -/
def split (s : String) (sep : Char) : List String :=
  (splitChars sep s.data).map String.mk

/-- Array element read `xs[i]`: `undefined` beyond the end. -/
def index (xs : List String) (i : Nat) : JSVal :=
  match xs.get? i with
  | some s => .str s
  | none => .undefined

/-- `riskLabel(level)`. -/
def riskLabel (level : RISK) : String :=
  if level = RISK.HIGH then
    "High"
  else if level = RISK.MEDIUM then
    "Medium"
  else
    "Low"

/-- `riskIcon(level)`: the identifier of the theme icon. -/
def riskIcon (level : RISK) : String :=
  if level = RISK.HIGH then
    "error"
  else if level = RISK.MEDIUM then
    "warning"
  else
    "check"

/-- A display node (`vscode.TreeItem`) with the properties the program sets. -/
structure TreeItem where
  label : JSVal
  extension : Option Extension
  contextValue : Option String
  iconPath : Option String
  description : Option String
  tooltip : Option String

/-- `new vscode.TreeItem(label)`. -/
def TreeItem.new (label : JSVal) : TreeItem :=
  ⟨label, none, none, none, none, none⟩

/-- `a || b`. -/
def JSVal.or (a b : JSVal) : JSVal :=
  if a.truthy then a else b

/-- `new ExtensionItem(extension, assessment)`. -/
def ExtensionItem (extension : Extension) (assessment : Assessment) :
    Except JSError TreeItem := do
  let displayName ← extension.packageJSON.get "displayName"
  let pkgName ← extension.packageJSON.get "name"
  let label := (displayName.or pkgName).or (.str extension.id)
  let iconPath := riskIcon assessment.level
  let pkgPublisher ← extension.packageJSON.get "publisher"
  let publisher :=
    if pkgPublisher.truthy then pkgPublisher else index (split extension.id '.') 0
  let name := (pkgName.or (index (split extension.id '.') 1)).or (.str extension.id)
  let description :=
    publisher.toStr ++ "." ++ name.toStr ++ " | " ++ riskLabel assessment.level
  let lines : List String := []
  let lines := lines ++ ["Risk: " ++ riskLabel assessment.level]
  let version ← extension.packageJSON.get "version"
  let lines := lines ++ ["Version: " ++ (version.or (.str "unknown")).toStr]
  let lines := lines ++ ["ID: " ++ extension.id]
  let lines :=
    if assessment.reasons.length ≠ 0 then
      let lines := lines ++ [""]
      let lines := lines ++ ["Reasons:"]
      assessment.reasons.foldl (fun acc reason => acc ++ ["- " ++ reason]) lines
    else lines
  pure ⟨label, some extension, some "trustLens.extension", some iconPath, some description,
    some ("\n".intercalate lines)⟩

/-- `extensions.map((item) => new ExtensionItem(item.extension, item.assessment))`. -/
def mapItems : List Entry → Except JSError (List TreeItem)
  | [] => pure []
  | item :: rest => do
    let node ← ExtensionItem item.extension item.assessment
    let nodes ← mapItems rest
    pure (node :: nodes)

/-- `TrustLensProvider.getChildren()` for the installed extensions `all`. -/
def getChildren (host : Host) (all : List Extension) : Except JSError (List TreeItem) := do
  let extensions ← reportEntries host all
  if extensions.length = 0 then
    pure [TreeItem.new (.str "No extensions found.")]
  else
    mapItems extensions


/-! ## Vocabulary of the specification -/

/-- The manifest field `v` lists the strings `ss`: it is the array of these
strings, or a single non-empty string, or it is absent and `ss` is empty. -/
def Lists (v : JSVal) (ss : List String) : Prop :=
  v = .arr (ss.map JSVal.str) ∨ (∃ s, s ≠ "" ∧ v = .str s ∧ ss = [s]) ∨
    (v.nullish = true ∧ ss = [])

/-- The value stored under `key` in the manifest `pkg`, `undefined` when there
is none. -/
def field (pkg : List (String × JSVal)) (key : String) : JSVal :=
  (pkg.lookup key).getD .undefined

/-- The extension carries a manifest whose `isBuiltin` flag is set. -/
def Extension.builtin (e : Extension) : Bool :=
  match e.packageJSON with
  | .obj pkg => (field pkg "isBuiltin").truthy
  | _ => false

/-- The extension is typed as the data model has it: the manifest is an object
and its `displayName`, when present, is a string. -/
def Extension.wellTyped (e : Extension) : Bool :=
  match e.packageJSON with
  | .obj pkg =>
    match field pkg "displayName" with
    | .undefined => true
    | .null => true
    | .str _ => true
    | _ => false
  | _ => false

/-- The name the report is ordered by: the display name, or the identifier when
the manifest has no (non-empty) display name. -/
def Extension.nameOrId (e : Extension) : String :=
  match e.packageJSON with
  | .obj pkg =>
    match field pkg "displayName" with
    | .str s => if s = "" then e.id else s
    | _ => e.id
  | _ => e.id

/-- The manifest field `v` is typed as an optional string: it is absent or a
string. -/
def JSVal.optText : JSVal → Bool
  | .undefined => true
  | .null => true
  | .str _ => true
  | _ => false

/-- The string held by the manifest field `v`, or `fallback` when the field
holds no (non-empty) string. -/
def textOr (v : JSVal) (fallback : String) : String :=
  match v with
  | .str s => if s = "" then fallback else s
  | _ => fallback

/-- The extension has a (non-empty) display name, or else has no manifest
name. -/
def Extension.labelled (e : Extension) : Bool :=
  match e.packageJSON with
  | .obj pkg => (field pkg "displayName").truthy || !(field pkg "name").truthy
  | _ => false

/-- The rank of a tier in the report as the specification gives it: high 0,
medium 1, low 2. -/
def tierRank : RISK → Nat
  | .HIGH => 0
  | .MEDIUM => 1
  | .LOW => 2

/-- The four reasons, in rule order. -/
def allReasons : List String :=
  ["Activates on all events", "Activates on startup",
   "Runs in workspace (filesystem access)", "Runs Node.js extension host code"]

/-! ## A reference host -/

/-- Lexicographic three-way comparison of code point sequences. -/
def cmpCodes : List Nat → List Nat → Int
  | [], [] => 0
  | [], _ :: _ => -1
  | _ :: _, [] => 1
  | a :: as, b :: bs =>
    if a < b then -1 else if b < a then 1 else cmpCodes as bs

/-- A host instance for concrete runs: lower-casing of the ASCII letters and
comparison by code points. -/
def refHost : Host where
  toLowerCase := fun s => String.mk (s.data.map Char.toLower)
  localeCompare := fun a b => cmpCodes (a.data.map Char.toNat) (b.data.map Char.toNat)

/-! ## Auxiliary definitions for the proofs -/

/-- The value the program reads under `key` from a manifest `v` that is neither
`undefined` nor `null`: the stored value when `v` is an object, and `undefined`
otherwise. -/
def manifestField (v : JSVal) (key : String) : JSVal :=
  match v with
  | .obj pkg => field pkg key
  | _ => .undefined

/-- The assessment as a function of the four rule conditions. -/
def tally (star startup runs main : Bool) : Assessment :=
  let score := (if star then 3 else 0) + (if startup then 2 else 0) + (if runs then 2 else 0) +
    (if main && runs then 1 else 0)
  let reasons := (if star then ["Activates on all events"] else []) ++
    (if startup then ["Activates on startup"] else []) ++
    (if runs then ["Runs in workspace (filesystem access)"] else []) ++
    (if main && runs then ["Runs Node.js extension host code"] else [])
  ⟨if score ≥ 5 then .HIGH else if score ≥ 3 then .MEDIUM else .LOW, score, reasons⟩

/-- The assessment of an extension, with a default where `assessRisk` throws. -/
def assessOf (e : Extension) : Assessment :=
  match assessRisk e with
  | .ok a => a
  | .error _ => ⟨.LOW, 0, []⟩

/-- The order the comparator of `getChildren` induces on entries: by tier rank,
then by the comparison of the lower-cased names. -/
def entryLe (host : Host) (a b : Entry) : Prop :=
  order a.assessment.level < order b.assessment.level ∨
    (order a.assessment.level = order b.assessment.level ∧
      host.localeCompare (host.toLowerCase a.extension.nameOrId)
        (host.toLowerCase b.extension.nameOrId) ≤ 0)

instance entryLeDecidable (host : Host) : DecidableRel (entryLe host) := fun a b => by
  unfold entryLe
  infer_instance

/-- The example of the specification: three installed extensions of levels low,
high and medium named Z, A and M, and with them a built-in extension whose
score would be high. -/
def sampleExtensions : List Extension :=
  [⟨"pub.z", .obj [("displayName", .str "Z"), ("extensionKind", .arr [.str "ui"])]⟩,
   ⟨"vscode.git", .obj [("isBuiltin", .bool true), ("activationEvents", .arr [.str "*"]),
      ("main", .str "./out/main.js")]⟩,
   ⟨"pub.a", .obj [("displayName", .str "A"), ("activationEvents", .arr [.str "*"])]⟩,
   ⟨"pub.m", .obj [("displayName", .str "M"),
      ("activationEvents", .arr [.str "onStartupFinished"])]⟩]

/-- Installed extensions whose names run against their tiers: the low one is
named Alpha, the medium one Mike, and the two high ones Zulu and Bravo. -/
def mixedExtensions : List Extension :=
  [⟨"pub.alpha", .obj [("displayName", .str "Alpha"), ("extensionKind", .arr [.str "ui"])]⟩,
   ⟨"pub.zulu", .obj [("displayName", .str "Zulu"), ("activationEvents", .arr [.str "*"])]⟩,
   ⟨"pub.mike", .obj [("displayName", .str "Mike"),
      ("activationEvents", .arr [.str "onStartupFinished"])]⟩,
   ⟨"pub.bravo", .obj [("displayName", .str "Bravo"), ("activationEvents", .arr [.str "*"])]⟩]

/-- Two extensions of the same tier whose display names differ only in case, the
one with the greater identifier first. -/
def collidingExtensions : List Extension :=
  [⟨"b.x", .obj [("displayName", .str "Same")]⟩, ⟨"a.x", .obj [("displayName", .str "same")]⟩]

/-- The display node of an entry, with a default where the constructor throws. -/
def nodeOf (en : Entry) : TreeItem :=
  match ExtensionItem en.extension en.assessment with
  | .ok node => node
  | .error _ => TreeItem.new .undefined

/-- Two extensions of the same tier without display name: their identifiers
ascend while their manifest names, which are their labels, descend. -/
def unnamedExtensions : List Extension :=
  [⟨"a.zeta", .obj [("name", .str "zeta")]⟩, ⟨"b.alpha", .obj [("name", .str "alpha")]⟩]

/-! ## Lemmas on the classifier -/

theorem get_of_not_nullish (v : JSVal) (key : String) (h : v.nullish = false) :
    v.get key = .ok (manifestField v key) := by
  cases v <;> simp_all [JSVal.nullish, JSVal.get, manifestField, field]

theorem get_default_manifest (v : JSVal) (key : String) (h : v.nullish = false) :
    (if v.truthy then v else JSVal.obj []).get key = .ok (manifestField v key) := by
  cases hv : v.truthy
  · cases v <;> simp_all [JSVal.truthy, JSVal.get, manifestField, field, JSVal.nullish]
  · simpa using get_of_not_nullish v key h

theorem normalizeArray_falsy (v : JSVal) (h : v.truthy = false) : normalizeArray v = [] := by
  simp [normalizeArray, h]

theorem getExtensionKind_eq (ext : Extension) (h : ext.packageJSON.nullish = false) :
    getExtensionKind ext =
      .ok (normalizeArray (manifestField ext.packageJSON "extensionKind")) := by
  unfold getExtensionKind
  rw [get_of_not_nullish _ _ h]
  cases hk : (manifestField ext.packageJSON "extensionKind").truthy
  · simp [bind, Except.bind, hk, pure, Except.pure, normalizeArray_falsy _ hk]
  · simp [bind, Except.bind, hk, pure, Except.pure]

/-- With a manifest present, `assessRisk` returns the tally of its four rules. -/
theorem assessRisk_eq_tally (ext : Extension) (h : ext.packageJSON.nullish = false) :
    assessRisk ext = .ok (tally
      (includes (normalizeArray (manifestField ext.packageJSON "activationEvents")) "*")
      (includes (normalizeArray (manifestField ext.packageJSON "activationEvents"))
        "onStartupFinished")
      (includes (normalizeArray (manifestField ext.packageJSON "extensionKind")) "workspace" ||
        (normalizeArray (manifestField ext.packageJSON "extensionKind")).length == 0)
      (manifestField ext.packageJSON "main").truthy) := by
  unfold assessRisk
  simp only [get_default_manifest _ _ h, getExtensionKind_eq ext h, bind, Except.bind, pure,
    Except.pure]
  generalize includes (normalizeArray (manifestField ext.packageJSON "activationEvents")) "*" = b1
  generalize includes (normalizeArray (manifestField ext.packageJSON "activationEvents"))
    "onStartupFinished" = b2
  generalize (includes (normalizeArray (manifestField ext.packageJSON "extensionKind"))
    "workspace" || (normalizeArray (manifestField ext.packageJSON "extensionKind")).length == 0)
    = b3
  generalize (manifestField ext.packageJSON "main").truthy = b4
  cases b1 <;> cases b2 <;> cases b3 <;> cases b4 <;> rfl

theorem includes_strings (ss : List String) (s : String) :
    includes (ss.map JSVal.str) s = decide (s ∈ ss) := by
  induction ss with
  | nil => simp [includes]
  | cons t ts ih =>
    simp only [includes, List.map_cons, List.any_cons] at ih ⊢
    rw [ih]
    by_cases hts : t = s
    · simp [JSVal.isStr, hts]
    · have hst : ¬ s = t := fun e => hts e.symm
      simp [JSVal.isStr, hts, hst]

theorem normalizeArray_lists (v : JSVal) (ss : List String) (h : Lists v ss) :
    normalizeArray v = ss.map JSVal.str := by
  rcases h with h | ⟨s, hs, hv, hss⟩ | ⟨hv, hss⟩
  · subst h
    simp [normalizeArray, JSVal.truthy]
  · subst hv hss
    simp [normalizeArray, JSVal.truthy, hs]
  · subst hss
    cases v <;> simp_all [JSVal.nullish, normalizeArray, JSVal.truthy]

/-- The tally of a manifest whose two list fields are given as lists of strings. -/
theorem assessRisk_of_lists (ext : Extension) (pkg : List (String × JSVal))
    (evs kinds : List String) (hpkg : ext.packageJSON = .obj pkg)
    (hev : Lists (field pkg "activationEvents") evs)
    (hkind : Lists (field pkg "extensionKind") kinds) :
    assessRisk ext = .ok (tally (decide ("*" ∈ evs)) (decide ("onStartupFinished" ∈ evs))
      (decide ("workspace" ∈ kinds ∨ kinds = [])) (field pkg "main").truthy) := by
  have hn : ext.packageJSON.nullish = false := by rw [hpkg]; rfl
  rw [assessRisk_eq_tally ext hn, hpkg]
  simp only [manifestField]
  rw [normalizeArray_lists _ _ hev, normalizeArray_lists _ _ hkind, includes_strings,
    includes_strings, includes_strings]
  congr 2
  cases kinds <;> simp

/-! ## Lemmas on the report builder -/

theorem wellTyped_not_nullish (e : Extension) (h : e.wellTyped = true) :
    e.packageJSON.nullish = false := by
  obtain ⟨id, pj⟩ := e
  cases pj <;> simp_all [Extension.wellTyped, JSVal.nullish]

theorem sortName_eq (host : Host) (e : Extension) (h : e.wellTyped = true) :
    sortName host e = .ok (host.toLowerCase e.nameOrId) := by
  obtain ⟨id, pj⟩ := e
  cases pj <;> simp [Extension.wellTyped] at h
  rename_i pkg
  unfold sortName Extension.nameOrId
  simp only [JSVal.get, bind, Except.bind]
  change (match (if (field pkg "displayName").truthy then field pkg "displayName"
      else JSVal.str id) with
    | .str s => pure (host.toLowerCase s)
    | _ => throw JSError.TypeError) = _
  cases hd : field pkg "displayName" <;> simp [hd] at h ⊢ <;> simp [JSVal.truthy, pure, Except.pure]
  rename_i s
  by_cases hs : s = "" <;> simp [hs]

theorem compareEntries_eq (host : Host) (a b : Entry) (ha : a.extension.wellTyped = true)
    (hb : b.extension.wellTyped = true) :
    ∃ c, compareEntries host a b = .ok c ∧ (c ≤ 0 ↔ entryLe host a b) := by
  unfold compareEntries entryLe
  by_cases hd : order a.assessment.level - order b.assessment.level ≠ 0
  · refine ⟨_, by rw [if_pos hd]; rfl, ?_⟩
    omega
  · refine ⟨host.localeCompare (host.toLowerCase a.extension.nameOrId)
      (host.toLowerCase b.extension.nameOrId), ?_, ?_⟩
    · rw [if_neg hd]
      simp only [sortName_eq host _ ha, sortName_eq host _ hb, bind, Except.bind]
      rfl
    · have : order a.assessment.level = order b.assessment.level := by omega
      simp [this]

theorem insertSorted_eq {α : Type} (cmp : α → α → Except JSError Int) (r : α → α → Prop)
    [DecidableRel r] (P : α → Prop)
    (hcmp : ∀ a b, P a → P b → ∃ c, cmp a b = .ok c ∧ (c ≤ 0 ↔ r a b))
    (a : α) (ha : P a) (l : List α) (hl : ∀ x ∈ l, P x) :
    insertSorted cmp a l = .ok (l.orderedInsert r a) := by
  induction l with
  | nil => rfl
  | cons b l ih =>
    obtain ⟨c, hc, hcr⟩ := hcmp a b ha (hl b (List.mem_cons_self b l))
    have ih2 := ih (fun x hx => hl x (List.mem_cons_of_mem b hx))
    simp only [insertSorted, hc, bind, Except.bind, List.orderedInsert]
    by_cases hr : r a b
    · simp [hr, hcr.mpr hr, pure, Except.pure]
    · have hnc : ¬ c ≤ 0 := fun h => hr (hcr.mp h)
      simp [hr, hnc, ih2, pure, Except.pure]

theorem sort_eq {α : Type} (cmp : α → α → Except JSError Int) (r : α → α → Prop)
    [DecidableRel r] (P : α → Prop)
    (hcmp : ∀ a b, P a → P b → ∃ c, cmp a b = .ok c ∧ (c ≤ 0 ↔ r a b))
    (l : List α) (hl : ∀ x ∈ l, P x) :
    sort cmp l = .ok (l.insertionSort r) := by
  induction l with
  | nil => rfl
  | cons a l ih =>
    have ih2 := ih (fun x hx => hl x (List.mem_cons_of_mem a hx))
    simp only [sort, ih2, bind, Except.bind, List.insertionSort]
    apply insertSorted_eq cmp r P hcmp a (hl a (List.mem_cons_self a l))
    intro x hx
    exact hl x (List.mem_cons_of_mem a ((List.mem_insertionSort r).mp hx))

theorem filterNotBuiltin_eq (all : List Extension) (h : ∀ e ∈ all, e.wellTyped = true) :
    filterNotBuiltin all = .ok (all.filter (fun e => !e.builtin)) := by
  induction all with
  | nil => rfl
  | cons e l ih =>
    have ih2 := ih (fun x hx => h x (List.mem_cons_of_mem e hx))
    have he := h e (List.mem_cons_self e l)
    obtain ⟨id, pj⟩ := e
    cases pj <;> simp [Extension.wellTyped] at he
    rename_i pkg
    simp only [filterNotBuiltin, ih2, JSVal.get, bind, Except.bind, List.filter, Extension.builtin,
      field]
    cases ((List.lookup "isBuiltin" pkg).getD JSVal.undefined).truthy <;> rfl

theorem mapAssess_eq (l : List Extension) (h : ∀ e ∈ l, e.wellTyped = true) :
    mapAssess l = .ok (l.map (fun e => ⟨e, assessOf e⟩)) := by
  induction l with
  | nil => rfl
  | cons e l ih =>
    have ih2 := ih (fun x hx => h x (List.mem_cons_of_mem e hx))
    have he := assessRisk_eq_tally e (wellTyped_not_nullish e (h e (List.mem_cons_self e l)))
    simp only [mapAssess, ih2, he, bind, Except.bind, List.map, assessOf]
    rfl

theorem reportEntries_eq (host : Host) (all : List Extension)
    (h : ∀ e ∈ all, e.wellTyped = true) :
    reportEntries host all = .ok (((all.filter (fun e => !e.builtin)).map
      (fun e => (⟨e, assessOf e⟩ : Entry))).insertionSort (entryLe host)) := by
  unfold reportEntries
  have hk : ∀ e ∈ all.filter (fun e => !e.builtin), e.wellTyped = true :=
    fun e he => h e (List.mem_of_mem_filter he)
  simp only [filterNotBuiltin_eq all h, mapAssess_eq _ hk, bind, Except.bind]
  apply sort_eq (compareEntries host) (entryLe host) (fun en => en.extension.wellTyped = true)
  · intro a b ha hb
    exact compareEntries_eq host a b ha hb
  · intro x hx
    obtain ⟨e, he, rfl⟩ := List.mem_map.mp hx
    exact hk e he


/-! ## The reference host is consistent -/

theorem cmpCodes_total (a b : List Nat) : cmpCodes a b ≤ 0 ∨ cmpCodes b a ≤ 0 := by
  induction a generalizing b with
  | nil => cases b <;> simp [cmpCodes]
  | cons x xs ih =>
    cases b with
    | nil => simp [cmpCodes]
    | cons y ys =>
      simp only [cmpCodes]
      have := ih ys
      split_ifs <;> omega

theorem cmpCodes_trans (a b c : List Nat) (hab : cmpCodes a b ≤ 0) (hbc : cmpCodes b c ≤ 0) :
    cmpCodes a c ≤ 0 := by
  induction a generalizing b c with
  | nil => cases c <;> simp [cmpCodes]
  | cons x xs ih =>
    cases b with
    | nil => simp [cmpCodes] at hab
    | cons y ys =>
      cases c with
      | nil => simp [cmpCodes] at hbc
      | cons z zs =>
        simp only [cmpCodes] at hab hbc ⊢
        have := ih ys zs
        split_ifs at hab hbc ⊢ <;> omega

theorem refHost_consistent : refHost.Consistent :=
  ⟨fun _ _ => cmpCodes_total _ _, fun _ _ _ => cmpCodes_trans _ _ _⟩

theorem entryLe_total (host : Host) (hc : host.Consistent) (a b : Entry) :
    entryLe host a b ∨ entryLe host b a := by
  unfold entryLe
  have := hc.1 (host.toLowerCase a.extension.nameOrId) (host.toLowerCase b.extension.nameOrId)
  omega

theorem entryLe_trans (host : Host) (hc : host.Consistent) (a b c : Entry)
    (hab : entryLe host a b) (hbc : entryLe host b c) : entryLe host a c := by
  unfold entryLe at hab hbc ⊢
  have := hc.2 (host.toLowerCase a.extension.nameOrId) (host.toLowerCase b.extension.nameOrId)
    (host.toLowerCase c.extension.nameOrId)
  rcases hab with hab | ⟨hab, hab2⟩ <;> rcases hbc with hbc | ⟨hbc, hbc2⟩
  · left; omega
  · left; omega
  · left; omega
  · right; exact ⟨by omega, this hab2 hbc2⟩

/-! ## The classifier -/

/-- C1: for a manifest whose `activationEvents` lists the strings `evs` and whose
`extensionKind` lists the strings `kinds` (an absent field lists none),
`assessRisk` returns, and its score is the sum of 3 if `"*"` is among `evs`, 2 if
`"onStartupFinished"` is among `evs`, 2 if the extension runs in the workspace,
and 1 if a main entry point is declared and the extension runs in the workspace;
it runs in the workspace exactly when `"workspace"` is among `kinds` or `kinds`
is empty. Each rule counts once, however often a string is listed. -/
theorem assessRisk_score (ext : Extension) (pkg : List (String × JSVal))
    (evs kinds : List String) (hpkg : ext.packageJSON = .obj pkg)
    (hev : Lists (field pkg "activationEvents") evs)
    (hkind : Lists (field pkg "extensionKind") kinds) :
    ∃ a, assessRisk ext = .ok a ∧
      a.score = (if "*" ∈ evs then 3 else 0) + (if "onStartupFinished" ∈ evs then 2 else 0) +
        (if "workspace" ∈ kinds ∨ kinds = [] then 2 else 0) +
        (if (field pkg "main").truthy = true ∧ ("workspace" ∈ kinds ∨ kinds = []) then 1
          else 0) := by
  refine ⟨_, assessRisk_of_lists ext pkg evs kinds hpkg hev hkind, ?_⟩
  simp [tally]

/-- Scenario A of the specification: `activationEvents = ["*"]`,
`extensionKind = []` and a main entry point give the score 3 + 2 + 1 = 6. -/
theorem assessRisk_score_witness :
    ∃ a, assessRisk ⟨"pub.ext", .obj [("activationEvents", .arr [.str "*"]),
        ("extensionKind", .arr []), ("main", .str "./main.js")]⟩ = .ok a ∧ a.score = 6 := by
  have h := assessRisk_score
    ⟨"pub.ext", .obj [("activationEvents", .arr [.str "*"]), ("extensionKind", .arr []),
      ("main", .str "./main.js")]⟩
    [("activationEvents", .arr [.str "*"]), ("extensionKind", .arr []),
      ("main", .str "./main.js")]
    ["*"] [] rfl (Or.inl rfl) (Or.inl rfl)
  obtain ⟨a, ha, hs⟩ := h
  refine ⟨a, ha, ?_⟩
  rw [hs]
  decide

/-- C2: whenever a manifest is present, `assessRisk` returns and the level is a
function of the score alone: high exactly when the score is at least 5, medium
exactly when it is 3 or 4, low exactly when it is below 3. -/
theorem assessRisk_level (ext : Extension) (h : ext.packageJSON.nullish = false) :
    ∃ a, assessRisk ext = .ok a ∧ (a.level = .HIGH ↔ 5 ≤ a.score) ∧
      (a.level = .MEDIUM ↔ 3 ≤ a.score ∧ a.score < 5) ∧ (a.level = .LOW ↔ a.score < 3) := by
  refine ⟨_, assessRisk_eq_tally ext h, ?_⟩
  generalize includes (normalizeArray (manifestField ext.packageJSON "activationEvents")) "*" = b1
  generalize includes (normalizeArray (manifestField ext.packageJSON "activationEvents"))
    "onStartupFinished" = b2
  generalize (includes (normalizeArray (manifestField ext.packageJSON "extensionKind"))
    "workspace" || (normalizeArray (manifestField ext.packageJSON "extensionKind")).length == 0)
    = b3
  generalize (manifestField ext.packageJSON "main").truthy = b4
  cases b1 <;> cases b2 <;> cases b3 <;> cases b4 <;> decide

/-- Scenario C of the specification: `activationEvents = ["onStartupFinished"]`,
`extensionKind = []` and no main entry point give score 4 and level medium. -/
theorem assessRisk_level_witness :
    assessRisk ⟨"pub.ext", .obj [("activationEvents", .arr [.str "onStartupFinished"]),
        ("extensionKind", .arr [])]⟩ =
      .ok ⟨.MEDIUM, 4, ["Activates on startup", "Runs in workspace (filesystem access)"]⟩ ∧
    ∃ a, assessRisk ⟨"pub.ext", .obj [("activationEvents", .arr [.str "onStartupFinished"]),
        ("extensionKind", .arr [])]⟩ = .ok a ∧ (a.level = .HIGH ↔ 5 ≤ a.score) ∧
      (a.level = .MEDIUM ↔ 3 ≤ a.score ∧ a.score < 5) ∧ (a.level = .LOW ↔ a.score < 3) :=
  ⟨rfl, assessRisk_level ⟨"pub.ext", .obj [("activationEvents",
    .arr [.str "onStartupFinished"]), ("extensionKind", .arr [])]⟩ rfl⟩

/-- C3: for a manifest whose `activationEvents` lists `evs` and whose
`extensionKind` lists `kinds`, the reasons returned by `assessRisk` are the
messages of the rules that fired, in rule order: they form a sublist of the four
messages in their fixed order and hold no duplicate. -/
theorem assessRisk_reasons (ext : Extension) (pkg : List (String × JSVal))
    (evs kinds : List String) (hpkg : ext.packageJSON = .obj pkg)
    (hev : Lists (field pkg "activationEvents") evs)
    (hkind : Lists (field pkg "extensionKind") kinds) :
    ∃ a, assessRisk ext = .ok a ∧
      a.reasons = (if "*" ∈ evs then ["Activates on all events"] else []) ++
        (if "onStartupFinished" ∈ evs then ["Activates on startup"] else []) ++
        (if "workspace" ∈ kinds ∨ kinds = [] then ["Runs in workspace (filesystem access)"]
          else []) ++
        (if (field pkg "main").truthy = true ∧ ("workspace" ∈ kinds ∨ kinds = []) then
          ["Runs Node.js extension host code"] else []) ∧
      a.reasons.Sublist allReasons ∧ a.reasons.Nodup := by
  refine ⟨_, assessRisk_of_lists ext pkg evs kinds hpkg hev hkind, ?_, ?_⟩
  · simp [tally]
  · generalize decide ("*" ∈ evs) = b1
    generalize decide ("onStartupFinished" ∈ evs) = b2
    generalize decide ("workspace" ∈ kinds ∨ kinds = []) = b3
    generalize (field pkg "main").truthy = b4
    cases b1 <;> cases b2 <;> cases b3 <;> cases b4 <;> decide

/-- A manifest firing the first, third and fourth rule (Scenario A). -/
theorem assessRisk_reasons_witness :
    ∃ a, assessRisk ⟨"pub.ext", .obj [("activationEvents", .arr [.str "*", .str "*"]),
        ("main", .str "./main.js")]⟩ = .ok a ∧
      a.reasons = ["Activates on all events", "Runs in workspace (filesystem access)",
        "Runs Node.js extension host code"] := by
  have h := assessRisk_reasons
    ⟨"pub.ext", .obj [("activationEvents", .arr [.str "*", .str "*"]),
      ("main", .str "./main.js")]⟩
    [("activationEvents", .arr [.str "*", .str "*"]), ("main", .str "./main.js")]
    ["*", "*"] [] rfl (Or.inl rfl) (Or.inr (Or.inr ⟨rfl, rfl⟩))
  obtain ⟨a, ha, hr, _⟩ := h
  refine ⟨a, ha, ?_⟩
  rw [hr]
  decide

/-- C4, as stated, fails: for an extension whose `packageJSON` is absent,
`assessRisk` does not return an assessment. The guard `extension.packageJSON || {}`
covers the reads of `activationEvents` and `main`, but `getExtensionKind` reads
`extension.packageJSON.extensionKind` without it and raises a `TypeError`. -/
theorem assessRisk_absent_manifest_throws :
    assessRisk ⟨"pub.ext", .undefined⟩ = .error .TypeError ∧
    assessRisk ⟨"pub.ext", .null⟩ = .error .TypeError ∧
    getExtensionKind ⟨"pub.ext", .undefined⟩ = .error .TypeError :=
  ⟨rfl, rfl, rfl⟩

/-- C4, amended: `assessRisk` never fails on an extension whose manifest is
present: whenever `packageJSON` is neither `undefined` nor `null`, and also when
its `activationEvents`, `extensionKind` and `main` are all missing, `assessRisk`
returns an assessment. -/
theorem assessRisk_returns_with_manifest (ext : Extension)
    (h : ext.packageJSON.nullish = false) :
    (∃ a, assessRisk ext = .ok a) ∧
      (manifestField ext.packageJSON "activationEvents" = .undefined →
        manifestField ext.packageJSON "extensionKind" = .undefined →
        manifestField ext.packageJSON "main" = .undefined →
        assessRisk ext = .ok ⟨.LOW, 2, ["Runs in workspace (filesystem access)"]⟩) := by
  refine ⟨⟨_, assessRisk_eq_tally ext h⟩, ?_⟩
  intro h1 h2 h3
  rw [assessRisk_eq_tally ext h, h1, h2, h3]
  rfl

/-- A manifest without any of the three fields is assessed: it runs in the
workspace by default, score 2, level low. -/
theorem assessRisk_returns_with_manifest_witness :
    (∃ a, assessRisk ⟨"pub.ext", .obj []⟩ = .ok a) ∧
      assessRisk ⟨"pub.ext", .obj []⟩ =
        .ok ⟨.LOW, 2, ["Runs in workspace (filesystem access)"]⟩ :=
  ⟨(assessRisk_returns_with_manifest ⟨"pub.ext", .obj []⟩ rfl).1,
    (assessRisk_returns_with_manifest ⟨"pub.ext", .obj []⟩ rfl).2 rfl rfl rfl⟩

/-! ## The normaliser -/

/-- C5, as stated, fails at the empty string: `normalizeArray("")` is the empty
array, not `[""]`. -/
theorem normalizeArray_empty_string :
    normalizeArray (.str "") = [] ∧ normalizeArray (.str "") ≠ [.str ""] := by
  constructor
  · rfl
  · simp [normalizeArray, JSVal.truthy]

/-- C5, amended: for every non-empty string `s`, `normalizeArray(s)` is the
one-element array `[s]`; for the empty string it is the empty array. -/
theorem normalizeArray_string (s : String) :
    normalizeArray (.str s) = if s = "" then [] else [.str s] := by
  by_cases h : s = "" <;> simp [normalizeArray, JSVal.truthy, h]

/-- C6: `normalizeArray` returns the empty array for `undefined` and for `null`,
and returns every array, the empty one included, unchanged. -/
theorem normalizeArray_absent_or_array :
    normalizeArray .undefined = [] ∧ normalizeArray .null = [] ∧
      ∀ xs : List JSVal, normalizeArray (.arr xs) = xs := by
  refine ⟨rfl, rfl, ?_⟩
  intro xs
  simp [normalizeArray, JSVal.truthy]

/-- C7, as stated, fails: a non-zero number, `true` and an object are each
wrapped into a one-element array instead of yielding the empty array. -/
theorem normalizeArray_malformed_not_empty :
    normalizeArray (.num 5) = [.num 5] ∧ normalizeArray (.bool true) = [.bool true] ∧
      normalizeArray (.obj []) = [.obj []] ∧ normalizeArray (.num 5) ≠ [] := by
  refine ⟨rfl, rfl, rfl, ?_⟩
  simp [normalizeArray, JSVal.truthy]

/-- C7, amended: `normalizeArray` is total, and on a value that is neither
absent, nor a string, nor an array it returns the one-element array holding the
value when the value is truthy, and the empty array when it is falsy, which
happens only for `false` and `0`. -/
theorem normalizeArray_malformed (v : JSVal) (hn : v.nullish = false)
    (hs : v.isString = false) (ha : v.isArray = false) :
    (v.truthy = true → normalizeArray v = [v]) ∧
      (v.truthy = false → normalizeArray v = [] ∧ (v = .bool false ∨ v = .num 0)) := by
  cases v <;>
    simp_all [JSVal.nullish, JSVal.isString, JSVal.isArray, normalizeArray, JSVal.truthy]

/-- The number 7 is wrapped; the number 0 degrades to the empty array. -/
theorem normalizeArray_malformed_witness :
    ((JSVal.num 7).truthy = true → normalizeArray (.num 7) = [.num 7]) ∧
      ((JSVal.num 7).truthy = false →
        normalizeArray (.num 7) = [] ∧ (JSVal.num 7 = .bool false ∨ JSVal.num 7 = .num 0)) :=
  normalizeArray_malformed (.num 7) rfl rfl rfl

/-! ## The report -/

/-- C8: for installed extensions typed as in the data model, the report entries
are, up to their order, exactly the extensions whose `isBuiltin` flag is not
set, each occurrence once; every entry pairs its extension with the result of
`assessRisk` on it, and no entry is built-in. -/
theorem reportEntries_nonbuiltin (host : Host) (all : List Extension)
    (h : ∀ e ∈ all, e.wellTyped = true) :
    ∃ entries, reportEntries host all = .ok entries ∧
      (entries.map Entry.extension).Perm (all.filter (fun e => !e.builtin)) ∧
      (∀ en ∈ entries, assessRisk en.extension = .ok en.assessment) ∧
      (∀ en ∈ entries, en.extension.builtin = false) := by
  refine ⟨_, reportEntries_eq host all h, ?_, ?_, ?_⟩
  · have hp := (List.perm_insertionSort (entryLe host) ((all.filter (fun e => !e.builtin)).map
      (fun e => (⟨e, assessOf e⟩ : Entry)))).map Entry.extension
    simpa [List.map_map, Function.comp_def] using hp
  · intro en hen
    obtain ⟨e, he, rfl⟩ := List.mem_map.mp ((List.mem_insertionSort _).mp hen)
    have hw := wellTyped_not_nullish e (h e (List.mem_of_mem_filter he))
    simp only [assessOf, assessRisk_eq_tally e hw]
  · intro en hen
    obtain ⟨e, he, rfl⟩ := List.mem_map.mp ((List.mem_insertionSort _).mp hen)
    simpa using (List.mem_filter.mp he).2

/-- The sample list: the built-in extension is left out although it scores 6. -/
theorem reportEntries_nonbuiltin_witness :
    assessRisk ⟨"vscode.git", .obj [("isBuiltin", .bool true),
        ("activationEvents", .arr [.str "*"]), ("main", .str "./out/main.js")]⟩ =
      .ok ⟨.HIGH, 6, ["Activates on all events", "Runs in workspace (filesystem access)",
        "Runs Node.js extension host code"]⟩ ∧
    ∃ entries, reportEntries refHost sampleExtensions = .ok entries ∧
      (entries.map Entry.extension).Perm (sampleExtensions.filter (fun e => !e.builtin)) ∧
      (∀ en ∈ entries, assessRisk en.extension = .ok en.assessment) ∧
      (∀ en ∈ entries, en.extension.builtin = false) :=
  ⟨rfl, reportEntries_nonbuiltin refHost sampleExtensions (by decide)⟩

/-- C9: with a consistent `localeCompare` and extensions typed as in the data
model, the report entries are sorted by tier, then by name. The comparator's
table ranks high 0, medium 1, low 2. Whenever one entry precedes another, its
tier rank is at most the other's, and when the two are in the same tier its
lower-cased name (the display name, or the identifier when there is none) does
not compare greater than the other's. In particular only a high entry precedes a
high entry and only a low entry follows a low entry: every high entry comes
before every medium entry, which comes before every low entry, whatever the
names. -/
theorem reportEntries_sorted (host : Host) (hc : host.Consistent) (all : List Extension)
    (h : ∀ e ∈ all, e.wellTyped = true) :
    (order .HIGH = 0 ∧ order .MEDIUM = 1 ∧ order .LOW = 2) ∧
    ∃ entries, reportEntries host all = .ok entries ∧
      entries.Pairwise (fun x y =>
        tierRank x.assessment.level ≤ tierRank y.assessment.level ∧
        (x.assessment.level = y.assessment.level →
          host.localeCompare (host.toLowerCase x.extension.nameOrId)
            (host.toLowerCase y.extension.nameOrId) ≤ 0) ∧
        (y.assessment.level = .HIGH → x.assessment.level = .HIGH) ∧
        (x.assessment.level = .LOW → y.assessment.level = .LOW)) := by
  refine ⟨⟨rfl, rfl, rfl⟩, _, reportEntries_eq host all h, ?_⟩
  haveI : IsTotal Entry (entryLe host) := ⟨entryLe_total host hc⟩
  haveI : IsTrans Entry (entryLe host) := ⟨entryLe_trans host hc⟩
  have hs := List.sorted_insertionSort (entryLe host) ((all.filter (fun e => !e.builtin)).map
      (fun e => (⟨e, assessOf e⟩ : Entry)))
  refine List.Pairwise.imp ?_ hs
  intro x y hxy
  unfold entryLe at hxy
  have hrank : tierRank x.assessment.level ≤ tierRank y.assessment.level := by
    cases hx : x.assessment.level <;> cases hy : y.assessment.level <;>
      simp [hx, hy, order, tierRank] at hxy ⊢
  refine ⟨hrank, ?_, ?_, ?_⟩
  · intro heq
    rcases hxy with hlt | ⟨_, hle⟩
    · rw [heq] at hlt
      omega
    · exact hle
  · intro hy
    cases hx : x.assessment.level <;> simp [hx, hy, tierRank] at hrank ⊢
  · intro hx
    cases hy : y.assessment.level <;> simp [hx, hy, tierRank] at hrank ⊢

/-- A list whose names run against its tiers: the input Alpha (low), Zulu
(high), Mike (medium), Bravo (high) comes out as Bravo, Zulu, Mike, Alpha, the
two high entries by name and the tiers against the alphabet. -/
theorem reportEntries_sorted_witness :
    (reportEntries refHost mixedExtensions).map
        (fun es => es.map (fun en => (en.extension.id, en.assessment.level))) =
      .ok [("pub.bravo", .HIGH), ("pub.zulu", .HIGH), ("pub.mike", .MEDIUM),
        ("pub.alpha", .LOW)] ∧
    ∃ entries, reportEntries refHost mixedExtensions = .ok entries ∧
      entries.Pairwise (fun x y =>
        tierRank x.assessment.level ≤ tierRank y.assessment.level ∧
        (x.assessment.level = y.assessment.level →
          refHost.localeCompare (refHost.toLowerCase x.extension.nameOrId)
            (refHost.toLowerCase y.extension.nameOrId) ≤ 0) ∧
        (y.assessment.level = .HIGH → x.assessment.level = .HIGH) ∧
        (x.assessment.level = .LOW → y.assessment.level = .LOW)) :=
  ⟨rfl, (reportEntries_sorted refHost refHost_consistent mixedExtensions (by decide)).2⟩

/-- C10, as stated, fails: two extensions of the same tier whose names collide
("Same" and "same") stay in input order, so `b.x` comes out before `a.x` although
`a.x` is the smaller identifier. -/
theorem reportEntries_tie_not_by_identifier :
    (reportEntries refHost collidingExtensions).map
        (fun es => es.map (fun en => (en.extension.id, en.assessment.level))) =
      .ok [("b.x", .LOW), ("a.x", .LOW)] ∧
    refHost.localeCompare (refHost.toLowerCase "Same") (refHost.toLowerCase "same") = 0 ∧
    "a.x" < "b.x" := by
  refine ⟨rfl, rfl, ?_⟩
  rw [String.lt_iff_toList_lt]
  decide

/-- C10, amended: of two extensions that are not built-in, are in the same risk
tier and have colliding names, the report places first the one that comes first
in the input list; the identifiers are not compared. -/
theorem reportEntries_tie_stable (host : Host) (all : List Extension)
    (h : ∀ e ∈ all, e.wellTyped = true) (a b : Extension) (hab : [a, b].Sublist all)
    (ha : a.builtin = false) (hb : b.builtin = false) (ra rb : Assessment)
    (hra : assessRisk a = .ok ra) (hrb : assessRisk b = .ok rb) (hlevel : ra.level = rb.level)
    (hname : host.localeCompare (host.toLowerCase a.nameOrId) (host.toLowerCase b.nameOrId)
      = 0) :
    ∃ entries, reportEntries host all = .ok entries ∧
      [(⟨a, ra⟩ : Entry), ⟨b, rb⟩].Sublist entries := by
  refine ⟨_, reportEntries_eq host all h, ?_⟩
  have h1 : [a, b].Sublist (all.filter (fun e => !e.builtin)) := by
    have := hab.filter (fun e => !e.builtin)
    simpa [ha, hb] using this
  have h2 := h1.map (fun e => (⟨e, assessOf e⟩ : Entry))
  have ea : assessOf a = ra := by simp [assessOf, hra]
  have eb : assessOf b = rb := by simp [assessOf, hrb]
  simp only [List.map, ea, eb] at h2
  apply List.pair_sublist_insertionSort _ h2
  right
  exact ⟨by rw [hlevel], le_of_eq hname⟩

/-- The colliding pair keeps its input order, `b.x` before `a.x`. -/
theorem reportEntries_tie_stable_witness :
    ∃ entries, reportEntries refHost collidingExtensions = .ok entries ∧
      [(⟨⟨"b.x", .obj [("displayName", .str "Same")]⟩,
          ⟨.LOW, 2, ["Runs in workspace (filesystem access)"]⟩⟩ : Entry),
        ⟨⟨"a.x", .obj [("displayName", .str "same")]⟩,
          ⟨.LOW, 2, ["Runs in workspace (filesystem access)"]⟩⟩].Sublist entries :=
  reportEntries_tie_stable refHost collidingExtensions (by decide)
    ⟨"b.x", .obj [("displayName", .str "Same")]⟩ ⟨"a.x", .obj [("displayName", .str "same")]⟩
    (List.Sublist.refl _) rfl rfl _ _ rfl rfl rfl rfl

/-! ## Further lemmas on the classifier -/

theorem tally_of_lists_eq (ext : Extension) (a : Assessment) (pkg : List (String × JSVal))
    (evs kinds : List String) (ha : assessRisk ext = .ok a) (hpkg : ext.packageJSON = .obj pkg)
    (hev : Lists (field pkg "activationEvents") evs)
    (hkind : Lists (field pkg "extensionKind") kinds) :
    a = tally (decide ("*" ∈ evs)) (decide ("onStartupFinished" ∈ evs))
      (decide ("workspace" ∈ kinds ∨ kinds = [])) (field pkg "main").truthy := by
  have h := assessRisk_of_lists ext pkg evs kinds hpkg hev hkind
  rw [ha] at h
  exact Except.ok.inj h

theorem assessRisk_cons_kind (id : String) (pkg : List (String × JSVal)) (v : JSVal) :
    assessRisk ⟨id, .obj (("extensionKind", v) :: pkg)⟩ = .ok (tally
      (includes (normalizeArray (field pkg "activationEvents")) "*")
      (includes (normalizeArray (field pkg "activationEvents")) "onStartupFinished")
      (includes (normalizeArray v) "workspace" || (normalizeArray v).length == 0)
      (field pkg "main").truthy) := by
  rw [assessRisk_eq_tally ⟨id, .obj (("extensionKind", v) :: pkg)⟩ rfl]
  rfl

/-! ## Lemmas on the presentation -/

theorem foldl_push (rs : List String) (init : List String) :
    rs.foldl (fun acc reason => acc ++ ["- " ++ reason]) init =
      init ++ rs.map (fun reason => "- " ++ reason) := by
  induction rs generalizing init with
  | nil => simp
  | cons r rs ih => simp [List.foldl, ih]

theorem ExtensionItem_obj (id : String) (pkg : List (String × JSVal)) (a : Assessment) :
    ExtensionItem ⟨id, .obj pkg⟩ a = .ok
      ⟨((field pkg "displayName").or (field pkg "name")).or (.str id),
       some ⟨id, .obj pkg⟩, some "trustLens.extension", some (riskIcon a.level),
       some ((if (field pkg "publisher").truthy then field pkg "publisher"
            else index (split id '.') 0).toStr ++ "." ++
          (((field pkg "name").or (index (split id '.') 1)).or (.str id)).toStr ++ " | " ++
          riskLabel a.level),
       some ("\n".intercalate
        (["Risk: " ++ riskLabel a.level,
          "Version: " ++ ((field pkg "version").or (.str "unknown")).toStr, "ID: " ++ id] ++
          (if a.reasons = [] then [] else
            ["", "Reasons:"] ++ a.reasons.map (fun reason => "- " ++ reason))))⟩ := by
  unfold ExtensionItem
  simp only [JSVal.get, bind, Except.bind, pure, Except.pure, foldl_push]
  congr 3
  cases hr : a.reasons <;> simp [field]

theorem or_textOr (v : JSVal) (fallback : String) (h : v.optText = true) :
    (v.or (.str fallback)).toStr = textOr v fallback := by
  cases v <;> simp [JSVal.optText] at h <;> simp [JSVal.or, JSVal.truthy, textOr, JSVal.toStr]
  rename_i s
  by_cases hs : s = "" <;> simp [hs, JSVal.toStr]

theorem splitChars_of_not_mem (sep : Char) (cs : List Char) (h : sep ∉ cs) :
    splitChars sep cs = [cs] := by
  induction cs with
  | nil => rfl
  | cons c cs ih =>
    have hc : ¬ c = sep := fun e => h (by simp [e])
    have hcs : sep ∉ cs := fun m => h (List.mem_cons_of_mem c m)
    simp [splitChars, hc, ih hcs]

theorem splitChars_append (sep : Char) (p r : List Char) (h : sep ∉ p) :
    splitChars sep (p ++ sep :: r) = p :: splitChars sep r := by
  induction p with
  | nil => simp [splitChars]
  | cons c cs ih =>
    have hc : ¬ c = sep := fun e => h (by simp [e])
    have hcs : sep ∉ cs := fun m => h (List.mem_cons_of_mem c m)
    simp [splitChars, hc, ih hcs]

theorem split_publisher_name (p n : String) (hp : '.' ∉ p.data) (hn : '.' ∉ n.data) :
    split (p ++ "." ++ n) '.' = [p, n] := by
  have hd : (p ++ "." ++ n).data = p.data ++ '.' :: n.data := by
    simp [String.data_append]
  simp [split, hd, splitChars_append _ _ _ hp, splitChars_of_not_mem _ _ hn]

theorem wellTyped_obj (e : Extension) (h : e.wellTyped = true) :
    ∃ pkg, e.packageJSON = .obj pkg := by
  obtain ⟨id, pj⟩ := e
  cases pj <;> simp [Extension.wellTyped] at h
  exact ⟨_, rfl⟩

theorem nodeOf_obj (en : Entry) (pkg : List (String × JSVal))
    (h : en.extension.packageJSON = .obj pkg) :
    ExtensionItem en.extension en.assessment = .ok (nodeOf en) := by
  obtain ⟨⟨id, pj⟩, a⟩ := en
  simp only at h
  subst h
  simp only [nodeOf, ExtensionItem_obj]

theorem mapItems_eq (l : List Entry) (h : ∀ en ∈ l, en.extension.wellTyped = true) :
    mapItems l = .ok (l.map nodeOf) := by
  induction l with
  | nil => rfl
  | cons en l ih =>
    have ih2 := ih (fun x hx => h x (List.mem_cons_of_mem en hx))
    obtain ⟨pkg, hpkg⟩ := wellTyped_obj _ (h en (List.mem_cons_self en l))
    simp only [mapItems, ih2, nodeOf_obj en pkg hpkg, bind, Except.bind, List.map]
    rfl

theorem getChildren_eq (host : Host) (all : List Extension)
    (h : ∀ e ∈ all, e.wellTyped = true) :
    getChildren host all = .ok
      (if (all.filter (fun e => !e.builtin)).length = 0 then
        [TreeItem.new (.str "No extensions found.")]
      else
        (((all.filter (fun e => !e.builtin)).map
          (fun e => (⟨e, assessOf e⟩ : Entry))).insertionSort (entryLe host)).map nodeOf) := by
  unfold getChildren
  simp only [reportEntries_eq host all h, bind, Except.bind, List.length_insertionSort,
    List.length_map]
  split_ifs with h0
  · rfl
  · apply mapItems_eq
    intro en hen
    obtain ⟨e, he, rfl⟩ := List.mem_map.mp ((List.mem_insertionSort _).mp hen)
    exact h e (List.mem_of_mem_filter he)

theorem sorted_entries (host : Host) (hc : host.Consistent) (l : List Entry) :
    (l.insertionSort (entryLe host)).Pairwise (entryLe host) := by
  haveI : IsTotal Entry (entryLe host) := ⟨entryLe_total host hc⟩
  haveI : IsTrans Entry (entryLe host) := ⟨entryLe_trans host hc⟩
  exact List.sorted_insertionSort (entryLe host) l

theorem riskIcon_injective (l1 l2 : RISK) (h : riskIcon l1 = riskIcon l2) : l1 = l2 := by
  cases l1 <;> cases l2 <;> first | rfl | (exact absurd h (by decide))

theorem label_of_falsy (d n : JSVal) (id : String) (hd : d.truthy = false)
    (hn : n.truthy = false) : (d.or n).or (.str id) = .str id := by
  simp [JSVal.or, hd, hn]

theorem label_of_truthy (d n : JSVal) (id : String) (hd : d.truthy = true) :
    (d.or n).or (.str id) = d := by
  simp [JSVal.or, hd]

theorem nodeOf_fields (en : Entry) (h : en.extension.wellTyped = true) :
    (nodeOf en).extension = some en.extension ∧
      (nodeOf en).iconPath = some (riskIcon en.assessment.level) ∧
      (en.extension.labelled = true → (nodeOf en).label = .str en.extension.nameOrId) := by
  obtain ⟨⟨id, pj⟩, a⟩ := en
  cases pj <;> simp [Extension.wellTyped] at h
  rename_i pkg
  simp only [nodeOf, ExtensionItem_obj]
  refine ⟨trivial, trivial, ?_⟩
  intro hl
  simp only [Extension.labelled, Bool.or_eq_true, Bool.not_eq_true'] at hl
  simp only [Extension.nameOrId]
  cases hd : field pkg "displayName" with
  | undefined =>
    rw [hd] at hl
    rcases hl with hl | hl
    · exact absurd hl (by simp [JSVal.truthy])
    · exact label_of_falsy _ _ id rfl hl
  | null =>
    rw [hd] at hl
    rcases hl with hl | hl
    · exact absurd hl (by simp [JSVal.truthy])
    · exact label_of_falsy _ _ id rfl hl
  | str s =>
    rw [hd] at hl
    by_cases hs : s = ""
    · subst hs
      rcases hl with hl | hl
      · exact absurd hl (by simp [JSVal.truthy])
      · simpa using label_of_falsy (.str "") _ id rfl hl
    · simpa [hs] using
        label_of_truthy (.str s) (field pkg "name") id (by simp [JSVal.truthy, hs])
  | bool b => simp [hd] at h
  | num n => simp [hd] at h
  | arr xs => simp [hd] at h
  | obj o => simp [hd] at h

/-! ## The classifier, continued -/

/-- C11: an absent `extensionKind` is equivalent to declaring `"workspace"`: for
a manifest `pkg` without `extensionKind`, `assessRisk` returns the same
assessment on `pkg` itself and on `pkg` with `extensionKind` set to `null`, to
the empty list, to the string `"workspace"` and to the list `["workspace"]`. -/
theorem extensionKind_absent_same_as_workspace (id : String) (pkg : List (String × JSVal))
    (hfree : field pkg "extensionKind" = .undefined) :
    ∃ a, assessRisk ⟨id, .obj pkg⟩ = .ok a ∧
      assessRisk ⟨id, .obj (("extensionKind", .null) :: pkg)⟩ = .ok a ∧
      assessRisk ⟨id, .obj (("extensionKind", .arr []) :: pkg)⟩ = .ok a ∧
      assessRisk ⟨id, .obj (("extensionKind", .str "workspace") :: pkg)⟩ = .ok a ∧
      assessRisk ⟨id, .obj (("extensionKind", .arr [.str "workspace"]) :: pkg)⟩ = .ok a := by
  have h0 : assessRisk ⟨id, .obj pkg⟩ = .ok (tally
      (includes (normalizeArray (field pkg "activationEvents")) "*")
      (includes (normalizeArray (field pkg "activationEvents")) "onStartupFinished")
      true (field pkg "main").truthy) := by
    rw [assessRisk_eq_tally ⟨id, .obj pkg⟩ rfl]
    simp only [manifestField, hfree]
    rfl
  refine ⟨_, h0, ?_, ?_, ?_, ?_⟩ <;> rw [assessRisk_cons_kind] <;> rfl

/-- A manifest activating on `"*"` gets the same assessment in the five cases. -/
theorem extensionKind_absent_same_as_workspace_witness :
    ∃ a, assessRisk ⟨"pub.ext", .obj [("activationEvents", .arr [.str "*"])]⟩ = .ok a ∧
      assessRisk ⟨"pub.ext", .obj [("extensionKind", .null),
        ("activationEvents", .arr [.str "*"])]⟩ = .ok a ∧
      assessRisk ⟨"pub.ext", .obj [("extensionKind", .arr []),
        ("activationEvents", .arr [.str "*"])]⟩ = .ok a ∧
      assessRisk ⟨"pub.ext", .obj [("extensionKind", .str "workspace"),
        ("activationEvents", .arr [.str "*"])]⟩ = .ok a ∧
      assessRisk ⟨"pub.ext", .obj [("extensionKind", .arr [.str "workspace"]),
        ("activationEvents", .arr [.str "*"])]⟩ = .ok a :=
  extensionKind_absent_same_as_workspace "pub.ext" [("activationEvents", .arr [.str "*"])] rfl

/-- C12: whenever a manifest is present, `assessRisk` returns; its reasons are
empty exactly when its score is 0; and when the manifest triggers no rule
(`activationEvents` lists neither `"*"` nor `"onStartupFinished"`, `extensionKind`
is non-empty and does not list `"workspace"`) the result is score 0, level low
and no reasons, whatever `main` holds. -/
theorem assessRisk_no_rule (ext : Extension) (h : ext.packageJSON.nullish = false) :
    ∃ a, assessRisk ext = .ok a ∧ (a.reasons = [] ↔ a.score = 0) ∧
      ∀ (pkg : List (String × JSVal)) (evs kinds : List String),
        ext.packageJSON = .obj pkg → Lists (field pkg "activationEvents") evs →
        Lists (field pkg "extensionKind") kinds →
        "*" ∉ evs → "onStartupFinished" ∉ evs → kinds ≠ [] → "workspace" ∉ kinds →
        a = ⟨.LOW, 0, []⟩ := by
  refine ⟨_, assessRisk_eq_tally ext h, ?_, ?_⟩
  · generalize includes (normalizeArray (manifestField ext.packageJSON "activationEvents")) "*"
      = b1
    generalize includes (normalizeArray (manifestField ext.packageJSON "activationEvents"))
      "onStartupFinished" = b2
    generalize (includes (normalizeArray (manifestField ext.packageJSON "extensionKind"))
      "workspace" || (normalizeArray (manifestField ext.packageJSON "extensionKind")).length == 0)
      = b3
    generalize (manifestField ext.packageJSON "main").truthy = b4
    cases b1 <;> cases b2 <;> cases b3 <;> cases b4 <;> decide
  · intro pkg evs kinds hpkg hev hkind h1 h2 h3 h4
    rw [tally_of_lists_eq ext _ pkg evs kinds (assessRisk_eq_tally ext h) hpkg hev hkind]
    have e1 : decide ("*" ∈ evs) = false := by simp [h1]
    have e2 : decide ("onStartupFinished" ∈ evs) = false := by simp [h2]
    have e3 : decide ("workspace" ∈ kinds ∨ kinds = []) = false := by simp [h3, h4]
    rw [e1, e2, e3]
    cases (field pkg "main").truthy <;> rfl

/-- Scenario B of the specification: `activationEvents = []`,
`extensionKind = ["ui"]` and a main entry point give score 0, level low and no
reasons. -/
theorem assessRisk_no_rule_witness :
    ∃ a, assessRisk ⟨"pub.ext", .obj [("activationEvents", .arr []),
        ("extensionKind", .arr [.str "ui"]), ("main", .str "./main.js")]⟩ = .ok a ∧
      a = ⟨.LOW, 0, []⟩ := by
  obtain ⟨a, ha, _, hb⟩ := assessRisk_no_rule
    ⟨"pub.ext", .obj [("activationEvents", .arr []), ("extensionKind", .arr [.str "ui"]),
      ("main", .str "./main.js")]⟩ rfl
  exact ⟨a, ha, hb [("activationEvents", .arr []), ("extensionKind", .arr [.str "ui"]),
    ("main", .str "./main.js")] [] ["ui"] rfl (Or.inl rfl) (Or.inl rfl) (by simp) (by simp)
    (by simp) (by simp)⟩

/-- C13: whenever a manifest is present, `assessRisk` returns and its score is
one of 0, 1, ..., 8. -/
theorem assessRisk_score_range (ext : Extension) (h : ext.packageJSON.nullish = false) :
    ∃ a, assessRisk ext = .ok a ∧ a.score ∈ [0, 1, 2, 3, 4, 5, 6, 7, 8] := by
  refine ⟨_, assessRisk_eq_tally ext h, ?_⟩
  generalize includes (normalizeArray (manifestField ext.packageJSON "activationEvents")) "*" = b1
  generalize includes (normalizeArray (manifestField ext.packageJSON "activationEvents"))
    "onStartupFinished" = b2
  generalize (includes (normalizeArray (manifestField ext.packageJSON "extensionKind"))
    "workspace" || (normalizeArray (manifestField ext.packageJSON "extensionKind")).length == 0)
    = b3
  generalize (manifestField ext.packageJSON "main").truthy = b4
  cases b1 <;> cases b2 <;> cases b3 <;> cases b4 <;> decide

/-- Scenario A of the specification scores within the range. -/
theorem assessRisk_score_range_witness :
    ∃ a, assessRisk ⟨"pub.ext", .obj [("activationEvents", .arr [.str "*"]),
        ("extensionKind", .arr []), ("main", .str "./main.js")]⟩ = .ok a ∧
      a.score ∈ [0, 1, 2, 3, 4, 5, 6, 7, 8] :=
  assessRisk_score_range ⟨"pub.ext", .obj [("activationEvents", .arr [.str "*"]),
    ("extensionKind", .arr []), ("main", .str "./main.js")]⟩ rfl

/-- C16: `assessRisk` depends only on the declared fields: two extensions whose
manifests agree on `activationEvents`, on `extensionKind` and on whether a main
entry point is declared get the same assessment, whatever their identifiers and
their other manifest fields. Being a function, `assessRisk` has no memory of
earlier calls. -/
theorem assessRisk_deterministic (e1 e2 : Extension) (pkg1 pkg2 : List (String × JSVal))
    (h1 : e1.packageJSON = .obj pkg1) (h2 : e2.packageJSON = .obj pkg2)
    (hev : field pkg1 "activationEvents" = field pkg2 "activationEvents")
    (hkind : field pkg1 "extensionKind" = field pkg2 "extensionKind")
    (hmain : (field pkg1 "main").truthy = (field pkg2 "main").truthy) :
    ∃ a, assessRisk e1 = .ok a ∧ assessRisk e2 = .ok a := by
  refine ⟨_, assessRisk_eq_tally e1 (by rw [h1]; rfl), ?_⟩
  rw [assessRisk_eq_tally e2 (by rw [h2]; rfl), h1, h2]
  simp only [manifestField, hev, hkind, hmain]

/-- Two extensions differing in identifier, display name, version and builtin
flag, with the same declared fields. -/
theorem assessRisk_deterministic_witness :
    ∃ a, assessRisk ⟨"a.one", .obj [("displayName", .str "One"), ("version", .str "1.0.0"),
        ("activationEvents", .arr [.str "*"])]⟩ = .ok a ∧
      assessRisk ⟨"b.two", .obj [("isBuiltin", .bool true),
        ("activationEvents", .arr [.str "*"])]⟩ = .ok a :=
  assessRisk_deterministic
    ⟨"a.one", .obj [("displayName", .str "One"), ("version", .str "1.0.0"),
      ("activationEvents", .arr [.str "*"])]⟩
    ⟨"b.two", .obj [("isBuiltin", .bool true), ("activationEvents", .arr [.str "*"])]⟩
    _ _ rfl rfl rfl rfl rfl

/-- C18: `assessRisk` is monotone in the activation events: when one manifest
lists the events `evs` and another lists `evs` and one more event `e`, the other
fields being the same, the score of the second is at least the score of the
first, its tier is not lower (its rank in `order` is not greater), and every
reason of the first is kept, in order. -/
theorem assessRisk_monotone_events (e1 e2 : Extension) (pkg1 pkg2 : List (String × JSVal)) (evs : List String)
    (e : String) (h1 : e1.packageJSON = .obj pkg1) (h2 : e2.packageJSON = .obj pkg2)
    (hev1 : Lists (field pkg1 "activationEvents") evs)
    (hev2 : Lists (field pkg2 "activationEvents") (evs ++ [e]))
    (hkind : field pkg1 "extensionKind" = field pkg2 "extensionKind")
    (hmain : field pkg1 "main" = field pkg2 "main") :
    ∃ a1 a2, assessRisk e1 = .ok a1 ∧ assessRisk e2 = .ok a2 ∧
      a1.score ≤ a2.score ∧ order a2.level ≤ order a1.level ∧
      a1.reasons.Sublist a2.reasons := by
  have n1 : e1.packageJSON.nullish = false := by rw [h1]; rfl
  have n2 : e2.packageJSON.nullish = false := by rw [h2]; rfl
  refine ⟨_, _, assessRisk_eq_tally e1 n1, assessRisk_eq_tally e2 n2, ?_⟩
  rw [h1, h2]
  simp only [manifestField, hkind, hmain, normalizeArray_lists _ _ hev1,
    normalizeArray_lists _ _ hev2, includes_strings]
  have m1 : "*" ∈ evs → "*" ∈ evs ++ [e] := fun h => List.mem_append_left _ h
  have m2 : "onStartupFinished" ∈ evs → "onStartupFinished" ∈ evs ++ [e] :=
    fun h => List.mem_append_left _ h
  generalize (includes (normalizeArray (field pkg2 "extensionKind")) "workspace" ||
    (normalizeArray (field pkg2 "extensionKind")).length == 0) = b3
  generalize (field pkg2 "main").truthy = b4
  by_cases p1 : "*" ∈ evs <;> by_cases p2 : "onStartupFinished" ∈ evs <;>
    by_cases q1 : "*" ∈ evs ++ [e] <;> by_cases q2 : "onStartupFinished" ∈ evs ++ [e] <;>
    first
    | exact absurd (m1 p1) q1
    | exact absurd (m2 p2) q2
    | (simp only [p1, p2, q1, q2, decide_True, decide_False]
       cases b3 <;> cases b4 <;> decide)

/-- Adding `"*"` to a manifest that activates on startup. -/
theorem assessRisk_monotone_events_witness :
    ∃ a1 a2,
      assessRisk ⟨"pub.ext", .obj [("activationEvents", .arr [.str "onStartupFinished"])]⟩
        = .ok a1 ∧
      assessRisk ⟨"pub.ext", .obj [("activationEvents",
        .arr [.str "onStartupFinished", .str "*"])]⟩ = .ok a2 ∧
      a1.score ≤ a2.score ∧ order a2.level ≤ order a1.level ∧
      a1.reasons.Sublist a2.reasons :=
  assessRisk_monotone_events
    ⟨"pub.ext", .obj [("activationEvents", .arr [.str "onStartupFinished"])]⟩
    ⟨"pub.ext", .obj [("activationEvents", .arr [.str "onStartupFinished", .str "*"])]⟩
    _ _ ["onStartupFinished"] "*" rfl rfl (Or.inl rfl) (Or.inl rfl) rfl rfl

/-- C19: whenever a manifest is present, `assessRisk` returns; the reason "Runs
Node.js extension host code" comes only together with "Runs in workspace
(filesystem access)"; the score is never 1; and an extension that does not run
in the workspace (`extensionKind` non-empty and without `"workspace"`) is rated
high only if it lists both `"*"` and `"onStartupFinished"`. -/
theorem assessRisk_host_code_needs_workspace (ext : Extension) (h : ext.packageJSON.nullish = false) :
    ∃ a, assessRisk ext = .ok a ∧
      ("Runs Node.js extension host code" ∈ a.reasons →
        "Runs in workspace (filesystem access)" ∈ a.reasons) ∧
      a.score ≠ 1 ∧
      ∀ (pkg : List (String × JSVal)) (evs kinds : List String),
        ext.packageJSON = .obj pkg → Lists (field pkg "activationEvents") evs →
        Lists (field pkg "extensionKind") kinds → kinds ≠ [] → "workspace" ∉ kinds →
        a.level = .HIGH → "*" ∈ evs ∧ "onStartupFinished" ∈ evs := by
  refine ⟨_, assessRisk_eq_tally ext h, ?_, ?_, ?_⟩
  · generalize includes (normalizeArray (manifestField ext.packageJSON "activationEvents")) "*"
      = b1
    generalize includes (normalizeArray (manifestField ext.packageJSON "activationEvents"))
      "onStartupFinished" = b2
    generalize (includes (normalizeArray (manifestField ext.packageJSON "extensionKind"))
      "workspace" || (normalizeArray (manifestField ext.packageJSON "extensionKind")).length == 0)
      = b3
    generalize (manifestField ext.packageJSON "main").truthy = b4
    cases b1 <;> cases b2 <;> cases b3 <;> cases b4 <;> decide
  · generalize includes (normalizeArray (manifestField ext.packageJSON "activationEvents")) "*"
      = b1
    generalize includes (normalizeArray (manifestField ext.packageJSON "activationEvents"))
      "onStartupFinished" = b2
    generalize (includes (normalizeArray (manifestField ext.packageJSON "extensionKind"))
      "workspace" || (normalizeArray (manifestField ext.packageJSON "extensionKind")).length == 0)
      = b3
    generalize (manifestField ext.packageJSON "main").truthy = b4
    cases b1 <;> cases b2 <;> cases b3 <;> cases b4 <;> decide
  · intro pkg evs kinds hpkg hev hkind h3 h4
    rw [tally_of_lists_eq ext _ pkg evs kinds (assessRisk_eq_tally ext h) hpkg hev hkind]
    have e3 : decide ("workspace" ∈ kinds ∨ kinds = []) = false := by simp [h3, h4]
    rw [e3]
    by_cases h1 : "*" ∈ evs <;> by_cases h2 : "onStartupFinished" ∈ evs <;>
      cases (field pkg "main").truthy <;> simp [h1, h2, tally]

/-- A UI-only extension listing both events is rated high, with score 5. -/
theorem assessRisk_host_code_needs_workspace_witness :
    assessRisk ⟨"pub.ext", .obj [("activationEvents",
        .arr [.str "*", .str "onStartupFinished"]), ("extensionKind", .arr [.str "ui"]),
        ("main", .str "./main.js")]⟩ =
      .ok ⟨.HIGH, 5, ["Activates on all events", "Activates on startup"]⟩ ∧
    ∃ a, assessRisk ⟨"pub.ext", .obj [("activationEvents",
        .arr [.str "*", .str "onStartupFinished"]), ("extensionKind", .arr [.str "ui"]),
        ("main", .str "./main.js")]⟩ = .ok a ∧ a.score ≠ 1 := by
  obtain ⟨a, ha, _, hs, _⟩ := assessRisk_host_code_needs_workspace
    ⟨"pub.ext", .obj [("activationEvents", .arr [.str "*", .str "onStartupFinished"]),
      ("extensionKind", .arr [.str "ui"]), ("main", .str "./main.js")]⟩ rfl
  exact ⟨rfl, a, ha, hs⟩

/-! ## The display nodes -/

/-- C14: for an entry whose manifest types `version` as an optional string, the
tooltip of the display node is the lines "Risk: <RiskLabel>", "Version: <version,
or unknown when there is none>" and "ID: <identifier>" joined by newlines;
without reasons nothing follows (3 lines); otherwise an empty line, the line
"Reasons:" and one line "- <reason>" per reason follow, in the order of the
assessment (5 lines and one per reason). -/
theorem ExtensionItem_tooltip (ext : Extension) (a : Assessment) (pkg : List (String × JSVal))
    (hpkg : ext.packageJSON = .obj pkg) (hver : (field pkg "version").optText = true) :
    ∃ node lines, ExtensionItem ext a = .ok node ∧
      node.tooltip = some ("\n".intercalate lines) ∧
      lines = ["Risk: " ++ riskLabel a.level,
          "Version: " ++ textOr (field pkg "version") "unknown", "ID: " ++ ext.id] ++
        (if a.reasons = [] then [] else
          ["", "Reasons:"] ++ a.reasons.map (fun reason => "- " ++ reason)) ∧
      lines.length = (if a.reasons = [] then 3 else 5 + a.reasons.length) := by
  obtain ⟨id, pj⟩ := ext
  simp only at hpkg
  subst hpkg
  refine ⟨_, _, ExtensionItem_obj id pkg a, ?_, rfl, ?_⟩
  · simp only [or_textOr _ _ hver]
  · by_cases hr : a.reasons = [] <;> simp [hr]
    omega

/-- A node with one reason: six lines. -/
theorem ExtensionItem_tooltip_witness :
    ∃ node, ExtensionItem ⟨"pub.ext", .obj [("version", .str "1.2.3")]⟩
        ⟨.LOW, 2, ["Runs in workspace (filesystem access)"]⟩ = .ok node ∧
      node.tooltip = some
        "Risk: Low\nVersion: 1.2.3\nID: pub.ext\n\nReasons:\n- Runs in workspace (filesystem access)" := by
  obtain ⟨node, lines, h1, h2, h3, _⟩ := ExtensionItem_tooltip
    ⟨"pub.ext", .obj [("version", .str "1.2.3")]⟩
    ⟨.LOW, 2, ["Runs in workspace (filesystem access)"]⟩ [("version", .str "1.2.3")] rfl rfl
  refine ⟨node, h1, ?_⟩
  rw [h2, h3]
  rfl

/-- C15: for an entry whose identifier has the form `publisher.name` and whose
manifest types `publisher` and `name` as optional strings, the description of
the display node is "<publisher>.<name> | <RiskLabel>": the publisher is the one
of the manifest, or else the part of the identifier before the dot; the name is
the one of the manifest, or else the part of the identifier after the dot; and
the label is "High", "Medium" or "Low" as the level is high, medium or low. -/
theorem ExtensionItem_description (ext : Extension) (a : Assessment) (pkg : List (String × JSVal)) (p n : String)
    (hpkg : ext.packageJSON = .obj pkg) (hpub : (field pkg "publisher").optText = true)
    (hname : (field pkg "name").optText = true) (hid : ext.id = p ++ "." ++ n)
    (hp : '.' ∉ p.data) (hn : '.' ∉ n.data) (hne : n ≠ "") :
    ∃ node, ExtensionItem ext a = .ok node ∧
      node.description = some (textOr (field pkg "publisher") p ++ "." ++
        textOr (field pkg "name") n ++ " | " ++ riskLabel a.level) ∧
      (a.level = .HIGH → riskLabel a.level = "High") ∧
      (a.level = .MEDIUM → riskLabel a.level = "Medium") ∧
      (a.level = .LOW → riskLabel a.level = "Low") := by
  obtain ⟨id, pj⟩ := ext
  simp only at hpkg hid
  subst hpkg
  refine ⟨_, ExtensionItem_obj id pkg a, ?_, ?_, ?_, ?_⟩
  · simp only [hid, split_publisher_name p n hp hn, index]
    have e1 : (if (field pkg "publisher").truthy then field pkg "publisher"
        else JSVal.str p).toStr = textOr (field pkg "publisher") p := or_textOr _ _ hpub
    have e2 : (((field pkg "name").or (JSVal.str n)).or (.str (p ++ "." ++ n))).toStr =
        textOr (field pkg "name") n := by
      rw [← or_textOr _ _ hname]
      cases hv : field pkg "name" <;> simp [hv, JSVal.optText] at hname <;>
        simp [JSVal.or, JSVal.truthy, hne]
      rename_i s
      by_cases hs : s = "" <;> simp [hs, hne]
    simp only [List.get?] at *
    rw [e1, e2]
  · intro h; rw [h]; rfl
  · intro h; rw [h]; rfl
  · intro h; rw [h]; rfl

/-- A manifest without publisher and name: both come from the identifier. -/
theorem ExtensionItem_description_witness :
    ∃ node, ExtensionItem ⟨"pub.ext", .obj []⟩ ⟨.HIGH, 5, []⟩ = .ok node ∧
      node.description = some "pub.ext | High" := by
  obtain ⟨node, h1, h2, _⟩ := ExtensionItem_description ⟨"pub.ext", .obj []⟩ ⟨.HIGH, 5, []⟩ []
    "pub" "ext" rfl rfl rfl rfl (by decide) (by decide) (by decide)
  refine ⟨node, h1, ?_⟩
  rw [h2]
  rfl

/-- C17: for installed extensions typed as in the data model: when none of them
is left after the built-in ones are dropped, the report entries are the empty
list and `getChildren` returns the single node labelled "No extensions found.";
in every other case `getChildren` returns as many nodes as there are extensions
that are not built-in. -/
theorem getChildren_placeholder_or_count (host : Host) (all : List Extension) (h : ∀ e ∈ all, e.wellTyped = true) :
    (all.filter (fun e => !e.builtin) = [] →
      reportEntries host all = .ok [] ∧
      getChildren host all = .ok [TreeItem.new (.str "No extensions found.")]) ∧
    (all.filter (fun e => !e.builtin) ≠ [] →
      ∃ nodes, getChildren host all = .ok nodes ∧
        nodes.length = (all.filter (fun e => !e.builtin)).length) := by
  constructor
  · intro h0
    constructor
    · rw [reportEntries_eq host all h, h0]
      rfl
    · rw [getChildren_eq host all h, h0]
      rfl
  · intro h0
    refine ⟨_, getChildren_eq host all h, ?_⟩
    have hl : (all.filter (fun e => !e.builtin)).length ≠ 0 := by
      intro hz
      exact h0 (List.length_eq_zero.mp hz)
    rw [if_neg hl]
    simp

/-- A list holding only a built-in extension gives the placeholder; the sample
list gives three nodes. -/
theorem getChildren_placeholder_or_count_witness :
    getChildren refHost [⟨"vscode.git", .obj [("isBuiltin", .bool true)]⟩] =
      .ok [TreeItem.new (.str "No extensions found.")] ∧
    ∃ nodes, getChildren refHost sampleExtensions = .ok nodes ∧ nodes.length = 3 := by
  refine ⟨((getChildren_placeholder_or_count refHost
    [⟨"vscode.git", .obj [("isBuiltin", .bool true)]⟩] (by decide)).1 rfl).2, ?_⟩
  obtain ⟨nodes, h1, h2⟩ :=
    (getChildren_placeholder_or_count refHost sampleExtensions (by decide)).2
      (fun h => absurd (congrArg List.length h) (by decide))
  exact ⟨nodes, h1, h2.trans (by decide)⟩

/-- C20, as stated, fails: two extensions of the same tier without display name
are ordered by their identifiers `a.zeta` and `b.alpha`, so their labels come
out as "zeta" before "alpha". -/
theorem getChildren_labels_not_sorted :
    (getChildren refHost unnamedExtensions).map
        (fun nodes => nodes.map (fun node => (node.label.toStr, node.iconPath))) =
      .ok [("zeta", some "check"), ("alpha", some "check")] ∧
    0 < refHost.localeCompare (refHost.toLowerCase "zeta") (refHost.toLowerCase "alpha") :=
  ⟨rfl, by decide⟩

/-- C20, amended: with a consistent `localeCompare` and extensions typed as in
the data model, within one risk tier (one icon) the display nodes appear in
non-decreasing case-insensitive order of the display name, or else the
identifier, of their extension; this is the label of the node for every
extension that has a display name or has no manifest name. -/
theorem getChildren_sorted_by_name_or_id (host : Host) (hc : host.Consistent) (all : List Extension)
    (h : ∀ e ∈ all, e.wellTyped = true) :
    ∃ nodes, getChildren host all = .ok nodes ∧
      nodes.Pairwise (fun x y => x.iconPath = y.iconPath →
        ∃ ex ey, x.extension = some ex ∧ y.extension = some ey ∧
          host.localeCompare (host.toLowerCase ex.nameOrId)
            (host.toLowerCase ey.nameOrId) ≤ 0) ∧
      ∀ node ∈ nodes, ∀ e, node.extension = some e → e.labelled = true →
        node.label = .str e.nameOrId := by
  refine ⟨_, getChildren_eq host all h, ?_, ?_⟩
  · split_ifs with h0
    · simp
    · rw [List.pairwise_map]
      have hw : ∀ en ∈ ((all.filter (fun e => !e.builtin)).map
          (fun e => (⟨e, assessOf e⟩ : Entry))).insertionSort (entryLe host),
          en.extension.wellTyped = true := by
        intro en hen
        obtain ⟨e, he, rfl⟩ := List.mem_map.mp ((List.mem_insertionSort _).mp hen)
        exact h e (List.mem_of_mem_filter he)
      refine List.Pairwise.imp_of_mem ?_ (sorted_entries host hc _)
      intro x y hx hy hxy hicon
      obtain ⟨ex, ix, _⟩ := nodeOf_fields x (hw x hx)
      obtain ⟨ey, iy, _⟩ := nodeOf_fields y (hw y hy)
      refine ⟨_, _, ex, ey, ?_⟩
      rw [ix, iy] at hicon
      have hlev := riskIcon_injective _ _ (Option.some.inj hicon)
      unfold entryLe at hxy
      rcases hxy with hlt | ⟨_, hle⟩
      · rw [hlev] at hlt
        omega
      · exact hle
  · intro node hnode e he hlab
    split_ifs at hnode with h0
    · simp only [List.mem_singleton] at hnode
      subst hnode
      simp [TreeItem.new] at he
    · obtain ⟨en, hen, rfl⟩ := List.mem_map.mp hnode
      obtain ⟨e0, he0, rfl⟩ := List.mem_map.mp ((List.mem_insertionSort _).mp hen)
      obtain ⟨ex, _, hlbl⟩ := nodeOf_fields ⟨e0, assessOf e0⟩ (h e0 (List.mem_of_mem_filter he0))
      rw [ex] at he
      have := Option.some.inj he
      subst this
      exact hlbl hlab

/-- The sample list, whose extensions all have a display name. -/
theorem getChildren_sorted_by_name_or_id_witness :
    ∃ nodes, getChildren refHost sampleExtensions = .ok nodes ∧
      nodes.map (fun node => node.label.toStr) = ["A", "M", "Z"] ∧
      ∀ node ∈ nodes, ∀ e, node.extension = some e → e.labelled = true →
        node.label = .str e.nameOrId := by
  obtain ⟨nodes, h1, _, h3⟩ :=
    getChildren_sorted_by_name_or_id refHost refHost_consistent sampleExtensions (by decide)
  refine ⟨nodes, h1, ?_, h3⟩
  have h4 : getChildren refHost sampleExtensions = .ok
      ((((sampleExtensions.filter (fun e => !e.builtin)).map
        (fun e => (⟨e, assessOf e⟩ : Entry))).insertionSort (entryLe refHost)).map nodeOf) :=
    getChildren_eq refHost sampleExtensions (by decide)
  rw [h1] at h4
  rw [Except.ok.inj h4]
  decide

end TrustLens
